import Mathlib

/-!
# Verification of the anki-chat-server core

Shallow embedding of the repository's core components:

* `websocket_manager.py` — `ConnectionManager` (connect / disconnect /
  broadcast_to_participants over a per-user multi-socket registry);
* `messages_sever_processing/message_anki_processing.py` — `normalize_text`,
  `_lemmatize_token`, `precompute_notes`, `make_ngram_set`,
  `find_note_matches`, `validate_anki_message`;
* `routers/anki.py` — the `stored_deck_notes` re-persistence endpoint
  (mod-based staleness reconciliation);
* `routers/websocket/chat_message_handler.py` — `handle_chat_message`.

External capabilities (the `simplemma` library's lemmatizer and tokenizer,
Python's `unicodedata` tables) are modelled as an abstract parameter
structure `ExtCaps`: the repository only wraps them.  Python dicts holding
optional cached keys are modelled as structures with `Option` fields where
`none` stands for an absent key (the code distinguishes key absence only
for `_front_lemmas`, via `in`; everywhere else it uses `.get`, for which
an absent key and a `None` value coincide).  Effectful steps (Redis reads
and writes, MongoDB writes, the LLM call, socket sends) are modelled as
explicit effect lists.
-/

/-- Python `str.lower()` (ASCII case table; the string functions are
defined over the character list so that they evaluate by kernel
reduction). -/
def strLower (s : String) : String := String.mk (s.data.map Char.toLower)

/-- Python `str.strip()`: drop whitespace from both ends. -/
def strTrim (s : String) : String :=
  String.mk (((s.data.dropWhile Char.isWhitespace).reverse.dropWhile
    Char.isWhitespace).reverse)

/-- Python slicing `s[:n]` (by code points). -/
def strTake (s : String) (n : Nat) : String := String.mk (s.data.take n)

/-- Python `s.replace(" ", "_")` (single-character pattern, so a per
character map). -/
def replaceSpaces (s : String) : String :=
  String.mk (s.data.map fun c => if c = ' ' then '_' else c)

/-- Characters of a string, for substring reasoning.  Python's
`needle in hay` on strings is contiguous-substring containment. -/
def pyStrIn (needle hay : String) : Bool :=
  decide (needle.data <:+: hay.data)

/-- Python truthiness of an optional string: `None` and `""` are falsy. -/
def strTruthy : Option String → Bool
  | none => false
  | some s => s ≠ ""

/-- Python `a or b` for an optional string `a` (absent key / `None` falsy)
and a string default `b`. -/
def pyOrOpt (a : Option String) (b : String) : String :=
  match a with
  | some s => if s = "" then b else s
  | none => b

/-- Python `a or b` on two strings (empty string is falsy). -/
def pyOrStr (a b : String) : String :=
  if a = "" then b else a

/-!
## External capabilities

`ExtCaps` packages the operations the code imports from outside the
repository: `unicodedata.normalize('NFD', ·)` and the per-character
`unicodedata.category(·) == 'Mn'` test, `simplemma.simple_tokenizer`,
and `simplemma.lemmatize` (which may raise: modelled with `Except`).
-/
structure ExtCaps where
  normNFD : String → String
  isMn : Char → Bool
  tokenizer : String → List String
  lemmatize : String → String → Except Unit String

/-- `message_anki_processing.normalize_text`: NFD normalization, removal of
combining marks (category Mn), lowercase, strip. -/
def normalize_text (E : ExtCaps) (text : String) : String :=
  if text = "" then ""
  else
    let t := E.normNFD text
    let t := String.mk (t.data.filter (fun c => !E.isMn c))
    strTrim (strLower t)

/-- The allowlist `_SIMPLEMMA_LANGS` from `message_anki_processing.py`. -/
def SIMPLEMMA_LANGS : List String :=
  ["en", "de", "fr", "es", "it", "pt", "nl", "ru", "uk", "ro"]

/-- `message_anki_processing._lemmatize_token`: lowercase the token; empty
token returned as is; supported language delegates to the capability, any
other language delegates with English; a raised capability error falls back
to the (lowercased) token itself. -/
def lemmatize_token (E : ExtCaps) (token : String) (lang_code : String) : String :=
  let token := strLower token
  if token = "" then token
  else
    let lang := if lang_code ∈ SIMPLEMMA_LANGS then lang_code else "en"
    match E.lemmatize token lang with
    | .ok s => strLower s
    | .error _ => token

/-!
## Connection manager (`websocket_manager.py`)

The registry `active_connections : Dict[str, List[WebSocket]]` is modelled
as an insertion-ordered association list from usernames to socket handles
(naturals).  Starting from the empty registry the keys stay distinct, which
matches Python dict semantics exactly.
-/

/-- The `active_connections` map. -/
abbrev Registry := List (String × List Nat)

/-- Dictionary lookup `active_connections[username]` /
`username in active_connections`. -/
def lookupUser : Registry → String → Option (List Nat)
  | [], _ => none
  | (k, v) :: rest, u => if k = u then some v else lookupUser rest u

/-- `ConnectionManager.connect`: create the user's entry if absent, then
append the socket. -/
def connect : Registry → String → Nat → Registry
  | [], u, s => [(u, [s])]
  | (k, v) :: rest, u, s =>
      if k = u then (k, v ++ [s]) :: rest
      else (k, v) :: connect rest u s

/-- `ConnectionManager.disconnect`: remove the socket from the user's list
(if both exist); delete the user's entry when the list becomes empty. -/
def disconnect : Registry → String → Nat → Registry
  | [], _, _ => []
  | (k, v) :: rest, u, s =>
      if k = u then
        let v' := if s ∈ v then v.erase s else v
        if v' = [] then rest else (k, v') :: rest
      else (k, v) :: disconnect rest u s

/-- `ConnectionManager.broadcast_to_participants`: for every participant
present in the registry, send the message on every one of their sockets.
Returns the socket sends performed, in order, as
(participant, socket, message) triples.  Note the `sender` argument is
accepted but never consulted, exactly as in the source. -/
def broadcast_to_participants {M : Type} (r : Registry) :
    List String → M → String → List (String × Nat × M)
  | [], _, _ => []
  | p :: ps, message, sender =>
      (match lookupUser r p with
       | some conns => conns.map (fun s => (p, s, message))
       | none => []) ++ broadcast_to_participants r ps message sender

/-- One registry operation, for stating reachability from the empty map. -/
inductive RegOp
  | conn (user : String) (socket : Nat)
  | disc (user : String) (socket : Nat)

/-- Apply one operation. -/
def applyOp (r : Registry) : RegOp → Registry
  | .conn u s => connect r u s
  | .disc u s => disconnect r u s

/-- Run a sequence of operations from the empty registry. -/
def runOps (ops : List RegOp) : Registry :=
  ops.foldl applyOp []

/-- Keys of the registry. -/
def regKeys (r : Registry) : List String := r.map Prod.fst

/-!
## Note dictionaries and deck sessions

A note dict as it travels through `precompute_notes` / `find_note_matches`.
Plain fields come from the `AnkiNote` pydantic model (`models.py`); the
underscore-prefixed cache keys written by `precompute_notes` are the
`Option`-typed fields (`none` = key absent).  `nsingle` models
`_single_word_lemma`, where `none` covers both an absent key and a stored
Python `None` (the code only ever tests its truthiness). -/
structure NoteDict where
  id : String
  front : String
  back : String
  mod : Int
  is_reviewed : Bool := false
  language : Option String := none
  nfront : Option String := none
  nlang : Option String := none
  ntokens : Option (List String) := none
  nlemmas : Option (List String) := none
  nsingle : Option String := none
  deriving DecidableEq, Repr

/-- The per-(user, deck) session stored under `anki_session:{user}:{deck}`
(see `routers/anki.py` and `validate_anki_message`).  `target_language` is
optional because `find_note_matches` reads it with
`.get("target_language", "en")`. -/
structure SessionData where
  deck_name : String
  notes : List NoteDict
  target_language : Option String := none
  deriving DecidableEq, Repr

/-- Effective language of a note in `precompute_notes`:
`(note.get("language") or default_lang or "en")[:2].lower()`. -/
def noteLang (n : NoteDict) (default_lang : String) : String :=
  strLower (strTake (pyOrStr (pyOrOpt n.language default_lang) "en") 2)

/-- The per-note body of the `precompute_notes` loop: returns the
(shallow-copied) note together with its `needs` recompute flag. -/
def precompute_note (E : ExtCaps) (default_lang : String) (n : NoteDict) :
    NoteDict × Bool :=
  let front := normalize_text E n.front
  let note_lang := noteLang n default_lang
  let needs := n.nfront ≠ some front ∨ n.nlang ≠ some note_lang ∨ n.nlemmas = none
  if needs then
    let tokens := ((E.tokenizer front).filter (fun t => strTrim t ≠ "")).map strLower
    let lemmas := tokens.map (fun t => lemmatize_token E t note_lang)
    ({ n with
        nfront := some front
        nlang := some note_lang
        ntokens := some tokens
        nlemmas := some lemmas
        nsingle := match lemmas with
          | [l] => some l
          | _ => none }, true)
  else (n, false)

/-- `message_anki_processing.precompute_notes`: annotate every note,
returning the new list and whether any note was recomputed. -/
def precompute_notes (E : ExtCaps) (notes : List NoteDict)
    (default_lang : String) : List NoteDict × Bool :=
  match notes with
  | [] => ([], false)
  | n :: rest =>
      let (n', c) := precompute_note E default_lang n
      let (rest', c') := precompute_notes E rest default_lang
      (n' :: rest', c || c')

/-- `" ".join(xs)` as in Python. -/
def pyJoin (sep : String) : List String → String
  | [] => ""
  | [x] => x
  | x :: rest => x ++ sep ++ pyJoin sep rest

/-- `message_anki_processing.make_ngram_set`: all space-joined contiguous
runs of `1..min max_n L` lemmas.  The Python set is modelled as a list
used only through membership. -/
def make_ngram_set (lemmas : List String) (max_n : Nat) : List String :=
  (List.range' 1 (min max_n lemmas.length)).flatMap fun n =>
    (List.range (lemmas.length - n + 1)).map fun i =>
      pyJoin " " ((lemmas.drop i).take n)

/-- Language used by `find_note_matches`:
`session_data.get("target_language", "en") if session_data else "en"`. -/
def sessLang : Option SessionData → String
  | none => "en"
  | some sd => sd.target_language.getD "en"

/-- Lowercased content tokens of `find_note_matches`
(`[t.lower() for t in simple_tokenizer(content)]`). -/
def contentTokens (E : ExtCaps) (content : String) : List String :=
  (E.tokenizer content).map strLower

/-- Content lemmas of `find_note_matches`. -/
def contentLemmas (E : ExtCaps) (content : String) (lang : String) :
    List String :=
  (contentTokens E content).map (fun t => lemmatize_token E t lang)

/-- The per-note match test of `find_note_matches` (branches a–d with
short-circuit `continue`; a note is appended when any branch fires). -/
def note_matches (E : ExtCaps) (content : String)
    (token_set lemma_set ngram_set : List String) (n : NoteDict) : Bool :=
  let front_norm := pyOrOpt n.nfront (normalize_text E n.front)
  -- a) single-word fast path on `_single_word_lemma`
  (strTruthy n.nsingle &&
     ((n.nsingle.getD "") ∈ lemma_set || front_norm ∈ token_set))
  -- b) length-1 token list: literal token in token or lemma set
  || (match n.ntokens with
      | some [t] => t ∈ token_set || t ∈ lemma_set
      | _ => false)
  -- c) multi-word: joined lemmas in the content n-gram set
  || (let front_lemmas := n.nlemmas.getD []
      front_lemmas ≠ [] && pyJoin " " front_lemmas ∈ ngram_set)
  -- d) substring fallback on normalized strings
  || (pyStrIn " " front_norm && pyStrIn front_norm (normalize_text E content))

/-- Result of the `find_note_matches` body, keeping the pieces the caller
`validate_anki_message` observes through aliasing: the candidate list, the
local `notes` variable after the optional precompute (`effNotes`), whether
the precompute branch ran (`precomputed`), and the possibly updated
`session_data`. -/
structure FindResult where
  candidates : List NoteDict
  effNotes : List NoteDict
  precomputed : Bool
  session : Option SessionData
  deriving DecidableEq, Repr

/-- `message_anki_processing.find_note_matches`, fully. -/
def find_core (E : ExtCaps) (content : String) (notes : List NoteDict)
    (session_data : Option SessionData) : FindResult :=
  if content = "" ∨ notes = [] then
    ⟨[], notes, false, session_data⟩
  else
    let lang_code := sessLang session_data
    let needs_precompute := notes.any fun n =>
      n.nfront = none || n.nlemmas = none || n.nlang = none
    let (effNotes, session') :=
      if needs_precompute then
        let (notes', changed) := precompute_notes E notes lang_code
        (notes',
         if changed then
           match session_data with
           | some sd => some { sd with notes := notes' }
           | none => none
         else session_data)
      else (notes, session_data)
    let token_set := contentTokens E content
    let lemma_set := contentLemmas E content lang_code
    let ngram_set := make_ngram_set (contentLemmas E content lang_code) 6
    ⟨effNotes.filter (note_matches E content token_set lemma_set ngram_set),
     effNotes, needs_precompute, session'⟩

/-- The return value of `find_note_matches` (the candidate notes).  The
unused `deck_name` parameter is kept to mirror the source signature. -/
def find_note_matches (E : ExtCaps) (content : String)
    (notes : List NoteDict) (deck_name : String)
    (session_data : Option SessionData) : List NoteDict :=
  let _ := deck_name
  (find_core E content notes session_data).candidates

/-!
## Deck re-persistence (`routers/anki.py`, `stored_deck_notes`)
-/

/-- The incoming `AnkiNote` pydantic model (`models.py`). -/
structure AnkiNote where
  id : String
  front : String
  back : String
  mod : Int
  is_reviewed : Bool := false
  deriving DecidableEq, Repr

/-- The `progress_map` built from the previously stored session:
`progress_map[note['id']] = {'is_reviewed': ..., 'mod': ...}` inside a loop,
so a duplicated id keeps the last occurrence. -/
def progressLookup (stored : List NoteDict) (id : String) :
    Option (Bool × Int) :=
  (stored.reverse.find? (fun n => n.id = id)).map fun n =>
    (n.is_reviewed, n.mod)

/-- The body of the `for note in deck.notes` loop of `stored_deck_notes`:
`note.model_dump()`, default `is_reviewed = False`, and the stale check
that keeps the stored review status only when the incoming `mod` equals
the stored one. -/
def reconcileNote (stored : List NoteDict) (note : AnkiNote) : NoteDict :=
  let base : NoteDict :=
    { id := note.id, front := note.front, back := note.back,
      mod := note.mod, is_reviewed := false }
  match progressLookup stored note.id with
  | some (rev, m) => if note.mod = m then { base with is_reviewed := rev } else base
  | none => base

/-- `routers/anki.stored_deck_notes`: build `final_notes` from the incoming
deck against the stored session, resolve the language (the stored
`target_language` if truthy, else the auto-detection result, supplied here
as the value `detected` of the external `detect_deck_language` call), and
return the session that is written back to Redis (TTL 86400) and echoed to
the client. -/
def stored_deck_notes (storedSession : Option SessionData)
    (deck_name : String) (incoming : List AnkiNote) (detected : String) :
    SessionData :=
  let storedNotes := match storedSession with
    | some sd => sd.notes
    | none => []
  let final_notes := incoming.map (reconcileNote storedNotes)
  let existing_language : Option String := match storedSession with
    | some sd => sd.target_language
    | none => none
  let final_language :=
    if strTruthy existing_language then existing_language.getD "" else detected
  { deck_name := deck_name, notes := final_notes,
    target_language := some final_language }

/-!
## Asynchronous validation (`validate_anki_message`)

The function's suspensions are modelled as inputs (the Redis `GET` result
`redisVal`, the LLM response `ai`) and outputs (the ordered list of
performed effects).  The broadcast is recorded as the manager call: socket
fan-out is `broadcast_to_participants` above.
-/

/-- The parsed LLM response dict (`check_usage_with_siliconflow` returns the
model's JSON verbatim, so both keys are read with `.get` defaults). -/
structure AiResult where
  valid_words : Option (List String) := none
  feedback : Option String := none
  deriving DecidableEq, Repr

/-- The `learning_update` payload (the real-time timestamp field is elided:
it carries no claim-relevant data). -/
structure LearningPayload where
  ticked_notes : List (String × String)   -- (id, word) pairs
  message_id : String
  message_review : String
  deck_name : String
  learner : String
  deriving DecidableEq, Repr

/-- Effects performed by `validate_anki_message`, in program order. -/
inductive VEffect
  | aiCall (sentence : String) (target_words : List String)
  | redisSet (key : String) (value : SessionData) (ttl : Nat)
  | broadcastCall (participants : List String) (payload : LearningPayload)
      (sender : String)
  | mongoUpdate (message_id : String) (ticked : List (String × String))
      (feedback : String)
  deriving DecidableEq, Repr

/-- The `state_modified` flag computed by `validate_anki_message`. -/
def stateModified (cands : List NoteDict) (valid : List String) : Bool :=
  cands.any fun n => n.front ∈ valid && !n.is_reviewed

/-- The notes list that `validate_anki_message` writes back on a state
change.  The local variable `notes` still refers to the pre-precompute
list: when `find_note_matches` ran its precompute branch the candidates are
fresh copies, so the `is_reviewed` mutations land on the copies and the
list written back is the original one; otherwise the candidates alias the
original dicts and the mutations are visible in it. -/
def writtenNotes (fr : FindResult) (valid : List String)
    (pred : NoteDict → Bool) (notes : List NoteDict) : List NoteDict :=
  if fr.precomputed then notes
  else notes.map fun n =>
    if pred n && n.front ∈ valid then { n with is_reviewed := true } else n

/-- `message_anki_processing.validate_anki_message` as an effect-list
function of its inputs.  `redisVal` is the parsed value under
`anki_session:{user}:{deck}` (`none` when the key is absent), `ai` the
LLM response. -/
def validate_anki_message (E : ExtCaps) (message_id user content deck_name :
    String) (participants : List String) (redisVal : Option SessionData)
    (ai : AiResult) : List VEffect :=
  match redisVal with
  | none => []
  | some session_data =>
    let notes := session_data.notes
    let fr := find_core E content notes (some session_data)
    if fr.candidates = [] then []
    else
      let target_words := fr.candidates.map (·.front)
      let valid := ai.valid_words.getD []
      let feedback := (ai.feedback.getD "Good practice!")
      let newly_reviewed_ids :=
        (fr.candidates.filter (fun n => n.front ∈ valid)).map fun n =>
          (n.id, n.front)
      let state_modified := stateModified fr.candidates valid
      let lang_code := sessLang (some session_data)
      let token_set := contentTokens E content
      let lemma_set := contentLemmas E content lang_code
      let ngram_set := make_ngram_set (contentLemmas E content lang_code) 6
      let pred := note_matches E content token_set lemma_set ngram_set
      let redis_key :=
        "anki_session:" ++ user ++ ":" ++ replaceSpaces deck_name
      let payload : LearningPayload :=
        { ticked_notes := newly_reviewed_ids, message_id := message_id,
          message_review := feedback, deck_name := deck_name,
          learner := user }
      [VEffect.aiCall content target_words]
      ++ (if state_modified then
            [VEffect.redisSet redis_key
              { session_data with notes := writtenNotes fr valid pred notes }
              86400]
          else [])
      ++ [VEffect.broadcastCall participants payload user]
      ++ [VEffect.mongoUpdate message_id newly_reviewed_ids feedback]

/-!
## Chat message handling (`routers/websocket/chat_message_handler.py`)
-/

/-- The inbound envelope fields the handler reads with `data.get(...)`. -/
structure InboundData where
  conversation_id : Option String := none
  content : Option String := none
  deck_name : Option String := none
  deriving DecidableEq, Repr

/-- A conversation document, as far as the handler reads it
(`conversation.get("participants", [])`). -/
structure Conversation where
  participants : List String := []
  deriving DecidableEq, Repr

/-- `db.conversations.find_one({"_id": ObjectId(conversation_id)})`, with
the store modelled as an association list keyed by the id string. -/
def findConversation (convs : List (String × Conversation)) (cid : String) :
    Option Conversation :=
  (convs.find? (fun c => c.1 = cid)).map Prod.snd

/-- The outbound chat broadcast payload (timestamp as the abstract clock
value `now`). -/
structure ChatPayload where
  message_id : String
  conversation_id : String
  sender : String
  content : String
  ts : Nat
  deriving DecidableEq, Repr

/-- Effects of `handle_chat_message`, in program order.  `errorFrame`
models a hypothetical error message sent back to the sender's socket: the
handler contains no such send, so the constructor is never produced. -/
inductive HEffect
  | insertMessage (conversation_id sender content : String) (ts : Nat)
  | scheduleValidation (message_id user content deck_name : String)
      (participants : List String)
  | statsUpdate (conversation_id participant : String) (ts : Nat)
  | convUpdate (conversation_id preview : String) (ts : Nat)
  | indexMessage (message_id : String)
  | broadcastCall (participants : List String) (payload : ChatPayload)
      (sender : String)
  | cacheDelete (key : String)
  | errorFrame (user info : String)
  deriving DecidableEq, Repr

/-- The truncated conversation preview:
`content if len(content) <= 10 else content[:10] + "..."`. -/
def previewOf (content : String) : String :=
  if content.length ≤ 10 then content else strTake content 10 ++ "..."

/-- `chat_message_handler.handle_chat_message` as an effect-list function.
`message_id` is the identity assigned by the insert, `now` the clock
reading at the top of the handler. -/
def handle_chat_message (user : String) (data : InboundData)
    (convs : List (String × Conversation)) (message_id : String)
    (now : Nat) : List HEffect :=
  if ¬ (strTruthy data.conversation_id ∧ strTruthy data.content) then []
  else
    let cid := data.conversation_id.getD ""
    let content := data.content.getD ""
    match findConversation convs cid with
    | none => []
    | some conversation =>
      let participants := conversation.participants
      [HEffect.insertMessage cid user content now]
      ++ (if strTruthy data.deck_name then
            [HEffect.scheduleValidation message_id user content
              (data.deck_name.getD "") participants]
          else [])
      ++ (participants.filter (fun p => p ≠ user)).map
           (fun p => HEffect.statsUpdate cid p now)
      ++ [HEffect.convUpdate cid (previewOf content) now]
      ++ [HEffect.indexMessage message_id]
      ++ [HEffect.broadcastCall participants
            { message_id := message_id, conversation_id := cid,
              sender := user, content := content, ts := now } user]
      ++ [HEffect.cacheDelete ("chat_history:" ++ cid)]
      ++ participants.map (fun p =>
           HEffect.cacheDelete ("user_conversations:" ++ p))

/-!
## Concrete capability instances

Sample instantiations of the external capabilities, used to evaluate the
theorems on concrete inputs.  `asciiCaps` is exact for plain ASCII input:
NFD is the identity there, no ASCII character is a combining mark, `\w+`
tokenization is maximal word-character runs, and the sample words are their
own lemmas. -/

/-- A `\w` word character, restricted to ASCII. -/
def isWordChar (c : Char) : Bool := c.isAlphanum || c = '_'

/-- Maximal runs of word characters (the `\w+` regex / the behaviour of
`simplemma.simple_tokenizer` on ASCII text).  Structurally recursive so
that it evaluates by kernel reduction: a word character either extends the
run that starts at the next character or opens a new singleton run. -/
def tokenRuns : List Char → List (List Char)
  | [] => []
  | c :: cs =>
    let rest := tokenRuns cs
    if isWordChar c then
      match cs with
      | [] => [[c]]
      | c2 :: _ =>
          if isWordChar c2 then (c :: rest.headD []) :: rest.tail
          else [c] :: rest
    else rest

/-- ASCII tokenizer instance. -/
def asciiTokenize (s : String) : List String :=
  (tokenRuns s.data).map String.mk

/-- External capabilities restricted to ASCII text, with every word its own
lemma. -/
def asciiCaps : ExtCaps where
  normNFD := id
  isMn := fun _ => false
  tokenizer := asciiTokenize
  lemmatize := fun t _ => .ok t

/-- A capability whose lemmatizer answers the empty string. -/
def emptyLemmaCaps : ExtCaps where
  normNFD := id
  isMn := fun _ => false
  tokenizer := asciiTokenize
  lemmatize := fun _ _ => .ok ""

/-- A capability whose lemmatizer always raises. -/
def throwLemmaCaps : ExtCaps where
  normNFD := id
  isMn := fun _ => false
  tokenizer := asciiTokenize
  lemmatize := fun _ _ => .error ()

/-!
## Concrete scenario inputs
-/

/-- A raw multi-word flashcard, before precomputation. -/
def rawHotDog : NoteDict := { id := "n1", front := "hot dog", back := "", mod := 1 }

/-- The "hot dog" note as `precompute_notes` annotates it. -/
def hotDogNote : NoteDict := (precompute_note asciiCaps "en" rawHotDog).1

/-- A note whose cached fields are stale: all three cache keys are present,
so `find_note_matches` skips precomputation, but `_normalized_front`
disagrees with a fresh normalization of `front`. -/
def staleNote : NoteDict :=
  { id := "n0", front := "hello", back := "", mod := 0, nfront := some "zzz",
    nlang := some "en", ntokens := some ["zzz"], nlemmas := some ["zzz"],
    nsingle := some "zzz" }

/-- An un-annotated note unrelated to the message "hello". -/
def freshExtra : NoteDict := { id := "nx", front := "xyz", back := "", mod := 0 }

/-- Registry of the fan-out scenario: the sender alice with one open
socket, recipients bob and carol with two each. -/
def fanoutRegistry : Registry :=
  runOps [RegOp.conn "alice" 1, RegOp.conn "bob" 2, RegOp.conn "bob" 3,
    RegOp.conn "carol" 4, RegOp.conn "carol" 5]

/-- The conversation store of the fan-out scenario. -/
def fanoutConvs : List (String × Conversation) :=
  [("c1", { participants := ["alice", "bob", "carol"] })]

/-- The inbound chat envelope of the fan-out scenario. -/
def fanoutData : InboundData :=
  { conversation_id := some "c1", content := some "hi" }

/-- The outbound payload the handler broadcasts in the scenario. -/
def fanoutPayload : ChatPayload :=
  { message_id := "m1", conversation_id := "c1", sender := "alice",
    content := "hi", ts := 0 }

/-!
## Claims
-/

/-- C2: on deck re-persistence (`stored_deck_notes`), every incoming note
whose id is tracked in the previously stored session keeps the stored
`is_reviewed` value when the incoming `mod` equals the stored one, and
presents as `is_reviewed = false` when the `mod` differs.  The first
conjunct ties the endpoint's persisted/returned notes to the per-note
reconciliation; the remaining two give the per-note rule (the session
written back to Redis is what the next deck read returns). -/
theorem stored_deck_notes_stale_check (storedSession : SessionData)
    (deck_name detected : String) (incoming : List AnkiNote)
    (note : AnkiNote) (rev : Bool) (m : Int)
    (h : progressLookup storedSession.notes note.id = some (rev, m)) :
    (stored_deck_notes (some storedSession) deck_name incoming detected).notes
      = incoming.map (reconcileNote storedSession.notes)
    ∧ (note.mod = m →
        (reconcileNote storedSession.notes note).is_reviewed = rev)
    ∧ (note.mod ≠ m →
        (reconcileNote storedSession.notes note).is_reviewed = false) := by
  refine ⟨rfl, ?_, ?_⟩
  · intro hm
    simp [reconcileNote, h, hm]
  · intro hm
    simp [reconcileNote, h, hm]

/-- A note cached as reviewed at revision 5 (spec example for C2). -/
def cachedMod5 : NoteDict :=
  { id := "a", front := "f", back := "", mod := 5, is_reviewed := true }

/-- The same card re-submitted at revision 6. -/
def incomingMod6 : AnkiNote := { id := "a", front := "f", back := "", mod := 6 }

/-- The stored session holding `cachedMod5` (spec example for C2). -/
def sessionMod5 : SessionData := { deck_name := "d", notes := [cachedMod5] }

/-- C2 witness: the spec's own example — a note cached with
`is_reviewed = true`, `mod = 5`, re-submitted with `mod = 6`, is reset. -/
theorem stored_deck_notes_stale_check_witness :
    progressLookup sessionMod5.notes incomingMod6.id = some (true, 5)
    ∧ (reconcileNote sessionMod5.notes incomingMod6).is_reviewed = false := by
  refine ⟨by decide, ?_⟩
  have h := stored_deck_notes_stale_check sessionMod5 "d" "en" []
    incomingMod6 true 5 (by decide)
  exact h.2.2 (by decide)

/-- A freshly recomputed note is stable: running the per-note precompute
body again finds nothing to do. -/
theorem precompute_note_idem (E : ExtCaps) (d : String) (n : NoteDict) :
    precompute_note E d (precompute_note E d n).1 = ((precompute_note E d n).1, false) := by
  by_cases h : n.nfront ≠ some (normalize_text E n.front) ∨
      n.nlang ≠ some (noteLang n d) ∨ n.nlemmas = none
  · have h1 : precompute_note E d n =
        ({ n with
            nfront := some (normalize_text E n.front)
            nlang := some (noteLang n d)
            ntokens := some (((E.tokenizer (normalize_text E n.front)).filter
              (fun t => strTrim t ≠ "")).map strLower)
            nlemmas := some ((((E.tokenizer (normalize_text E n.front)).filter
              (fun t => strTrim t ≠ "")).map strLower).map
                (fun t => lemmatize_token E t (noteLang n d)))
            nsingle := match (((E.tokenizer (normalize_text E n.front)).filter
              (fun t => strTrim t ≠ "")).map strLower).map
                (fun t => lemmatize_token E t (noteLang n d)) with
              | [l] => some l
              | _ => none }, true) := by
      rw [precompute_note]
      simp only [h, if_true]
    rw [h1]
    rw [precompute_note]
    simp [noteLang, normalize_text]
  · have h1 : precompute_note E d n = (n, false) := by
      rw [precompute_note]
      simp only [h, if_false]
    rw [h1, h1]

/-- Unfolding equation for `precompute_notes` on a cons cell. -/
theorem precompute_notes_cons (E : ExtCaps) (d : String) (n : NoteDict)
    (rest : List NoteDict) :
    precompute_notes E (n :: rest) d
      = ((precompute_note E d n).1 :: (precompute_notes E rest d).1,
         (precompute_note E d n).2 || (precompute_notes E rest d).2) := rfl

/-- C6: `precompute_notes` is stable on its own output — re-running it on
the returned list with the same default language returns an equal list and
`changed = False`. -/
theorem precompute_notes_idempotent (E : ExtCaps) (notes : List NoteDict)
    (default_lang : String) :
    precompute_notes E (precompute_notes E notes default_lang).1 default_lang
      = ((precompute_notes E notes default_lang).1, false) := by
  induction notes with
  | nil => rfl
  | cons n rest ih =>
    rw [precompute_notes_cons E default_lang n rest]
    rw [precompute_notes_cons E default_lang (precompute_note E default_lang n).1
      (precompute_notes E rest default_lang).1]
    rw [precompute_note_idem, ih]
    simp

/-- C7: `handle_chat_message` persists a message exactly when the inbound
envelope carries a truthy `conversation_id` and `content` and the
referenced conversation exists; when any of these preconditions fails it
performs no effect at all — in particular no write, no stats update, no
broadcast — and in no case does it send an error frame back to the
sender. -/
theorem handle_chat_message_preconditions (user : String)
    (data : InboundData) (convs : List (String × Conversation))
    (message_id : String) (now : Nat) :
    (¬ (strTruthy data.conversation_id = true ∧ strTruthy data.content = true
          ∧ (findConversation convs (data.conversation_id.getD "")).isSome = true) →
        handle_chat_message user data convs message_id now = [])
    ∧ ((∃ c s t ts, HEffect.insertMessage c s t ts
          ∈ handle_chat_message user data convs message_id now) ↔
        (strTruthy data.conversation_id = true ∧ strTruthy data.content = true
          ∧ (findConversation convs (data.conversation_id.getD "")).isSome = true))
    ∧ (∀ u info, HEffect.errorFrame u info
          ∉ handle_chat_message user data convs message_id now) := by
  refine ⟨?_, ?_, ?_⟩
  · intro hno
    by_cases h1 : strTruthy data.conversation_id = true ∧ strTruthy data.content = true
    · have hfind : findConversation convs (data.conversation_id.getD "") = none := by
        rcases hopt : findConversation convs (data.conversation_id.getD "") with _ | conv
        · rfl
        · exact absurd ⟨h1.1, h1.2, by simp [hopt]⟩ hno
      simp [handle_chat_message, h1, hfind]
    · simp [handle_chat_message, h1]
  · by_cases h1 : strTruthy data.conversation_id = true ∧ strTruthy data.content = true
    · rcases hfind : findConversation convs (data.conversation_id.getD "") with _ | conv
      · simp [handle_chat_message, h1, hfind]
      · constructor
        · intro _
          exact ⟨h1.1, h1.2, by simp [hfind]⟩
        · intro _
          refine ⟨data.conversation_id.getD "", user, data.content.getD "", now, ?_⟩
          simp [handle_chat_message, h1, hfind]
      
    · constructor
      · intro ⟨c, sdr, t, ts, hmem⟩
        rw [handle_chat_message] at hmem
        simp [h1] at hmem
      · intro hcon
        exact absurd ⟨hcon.1, hcon.2.1⟩ h1
  · intro u info
    by_cases h1 : strTruthy data.conversation_id = true ∧ strTruthy data.content = true
    · rcases hfind : findConversation convs (data.conversation_id.getD "") with _ | conv
      · simp [handle_chat_message, h1, hfind]
      · simp [handle_chat_message, h1, hfind]
    · simp [handle_chat_message, h1]

/-- An envelope with a conversation id but no content (malformed). -/
def noContentData : InboundData := { conversation_id := some "c1" }

/-- C7 witness: a malformed envelope (missing content) is silently dropped
with no effects at all. -/
theorem handle_chat_message_preconditions_witness :
    handle_chat_message "alice" noContentData fanoutConvs "m1" 0 = [] :=
  (handle_chat_message_preconditions "alice" noContentData fanoutConvs
    "m1" 0).1 (by decide)

/-- C10: when the deck-session cache key is absent, or `find_note_matches`
yields no candidate notes, `validate_anki_message` performs no observable
side effect: no LLM validation call, no session cache write, no
`learning_update` broadcast, no message enrichment update — the effect
list is empty. -/
theorem validate_anki_message_noop (E : ExtCaps)
    (message_id user content deck_name : String)
    (participants : List String) (redisVal : Option SessionData)
    (ai : AiResult)
    (h : redisVal = none ∨ ∃ sd, redisVal = some sd ∧
        (find_core E content sd.notes (some sd)).candidates = []) :
    validate_anki_message E message_id user content deck_name participants
      redisVal ai = [] := by
  rcases h with h | ⟨sd, hsd, hc⟩
  · rw [h, validate_anki_message]
  · rw [hsd, validate_anki_message]
    simp [hc]

/-- C10 witness: an absent cache key yields no effects. -/
theorem validate_anki_message_noop_witness :
    validate_anki_message asciiCaps "m1" "alice" "hello" "deck" ["alice"]
      none { } = [] :=
  validate_anki_message_noop asciiCaps "m1" "alice" "hello" "deck" ["alice"]
    none { } (Or.inl rfl)

/-- `state_modified` holds exactly when some AI-confirmed candidate is not
yet reviewed. -/
theorem stateModified_iff (cands : List NoteDict) (valid : List String) :
    stateModified cands valid = true ↔
      ∃ n ∈ cands.filter (fun n => n.front ∈ valid),
        n.is_reviewed = false := by
  rw [stateModified, List.any_eq_true]
  constructor
  · rintro ⟨n, hn, hcond⟩
    rw [Bool.and_eq_true, Bool.not_eq_true'] at hcond
    exact ⟨n, List.mem_filter.mpr ⟨hn, hcond.1⟩, hcond.2⟩
  · rintro ⟨n, hn, hrev⟩
    have hm := List.mem_filter.mp hn
    exact ⟨n, hm.1, by rw [Bool.and_eq_true, Bool.not_eq_true']
                       exact ⟨hm.2, hrev⟩⟩

/-- The ticked-notes list `newly_reviewed_ids` of `validate_anki_message`. -/
def tickedNotes (cands : List NoteDict) (valid : List String) :
    List (String × String) :=
  (cands.filter (fun n => n.front ∈ valid)).map fun n => (n.id, n.front)

/-- The per-note match predicate `find_note_matches` evaluates for a given
message and session. -/
def matchPred (E : ExtCaps) (content : String) (sess : Option SessionData) :
    NoteDict → Bool :=
  note_matches E content (contentTokens E content)
    (contentLemmas E content (sessLang sess))
    (make_ngram_set (contentLemmas E content (sessLang sess)) 6)

/-- The session value `validate_anki_message` writes back to Redis when
`state_modified` holds. -/
def writtenSessionOf (E : ExtCaps) (content : String) (sd : SessionData)
    (valid : List String) : SessionData :=
  let fr := find_core E content sd.notes (some sd)
  let wr := writtenNotes fr valid (matchPred E content (some sd)) sd.notes
  { sd with notes := wr }

/-- The Redis key `anki_session:{user}:{safe_deck_name}`. -/
def redisKeyOf (user deck_name : String) : String :=
  "anki_session:" ++ user ++ ":" ++ replaceSpaces deck_name

/-- The `learning_update` payload `validate_anki_message` broadcasts. -/
def learningPayloadOf (message_id user deck_name : String)
    (cands : List NoteDict) (ai : AiResult) : LearningPayload :=
  { ticked_notes := tickedNotes cands (ai.valid_words.getD []),
    message_id := message_id,
    message_review := ai.feedback.getD "Good practice!",
    deck_name := deck_name, learner := user }

/-- Reduction of `validate_anki_message` when the cache key is present and
candidates were found. -/
theorem validate_anki_message_eq (E : ExtCaps)
    (message_id user content deck_name : String) (parts : List String)
    (sd : SessionData) (ai : AiResult)
    (hc : (find_core E content sd.notes (some sd)).candidates ≠ []) :
    validate_anki_message E message_id user content deck_name parts
        (some sd) ai =
      [VEffect.aiCall content
        ((find_core E content sd.notes (some sd)).candidates.map (·.front))]
      ++ (if stateModified (find_core E content sd.notes (some sd)).candidates
            (ai.valid_words.getD []) then
            [VEffect.redisSet (redisKeyOf user deck_name)
              (writtenSessionOf E content sd (ai.valid_words.getD [])) 86400]
          else [])
      ++ [VEffect.broadcastCall parts
            (learningPayloadOf message_id user deck_name
              (find_core E content sd.notes (some sd)).candidates ai) user]
      ++ [VEffect.mongoUpdate message_id
            (tickedNotes (find_core E content sd.notes (some sd)).candidates
              (ai.valid_words.getD []))
            (ai.feedback.getD "Good practice!")] := by
  rw [validate_anki_message]
  simp only [tickedNotes, matchPred, writtenSessionOf, redisKeyOf,
    learningPayloadOf]
  rw [if_neg hc]

/-- An element of `l.zip l` has equal components. -/
theorem mem_zip_same {A : Type} (l : List A) (p : A × A) (h : p ∈ l.zip l) :
    p.1 = p.2 := by
  induction l with
  | nil => cases h
  | cons x xs ih =>
    rw [List.zip_cons_cons] at h
    rcases List.mem_cons.mp h with h | h
    · rw [h]
    · exact ih h

/-- An element of `l.zip (l.map f)` pairs each element with its image. -/
theorem mem_zip_map {A B : Type} (f : A → B) (l : List A) (p : A × B)
    (h : p ∈ l.zip (l.map f)) : p.2 = f p.1 := by
  induction l with
  | nil => cases h
  | cons x xs ih =>
    rw [List.map_cons, List.zip_cons_cons] at h
    rcases List.mem_cons.mp h with h | h
    · rw [h]
    · exact ih h

/-- C3: in `validate_anki_message` (with a stored session and a non-empty
candidate list), (i) when every AI-confirmed note is already reviewed no
deck-session cache write occurs, (ii) yet every confirmed note appears in
the `ticked_notes` of the `learning_update` broadcast, (iii) a cache write
occurs iff at least one confirmed note's `is_reviewed` flag transitions
from false to true, and (iv) the written session never reverts a reviewed
note to unreviewed. -/
theorem validate_anki_message_frame (E : ExtCaps)
    (message_id user content deck_name : String) (parts : List String)
    (sd : SessionData) (ai : AiResult)
    (hc : (find_core E content sd.notes (some sd)).candidates ≠ []) :
    ((∀ n ∈ (find_core E content sd.notes (some sd)).candidates.filter
        (fun n => n.front ∈ ai.valid_words.getD []), n.is_reviewed = true) →
      ∀ k v t, VEffect.redisSet k v t ∉
        validate_anki_message E message_id user content deck_name parts
          (some sd) ai)
    ∧ (∃ payload, VEffect.broadcastCall parts payload user ∈
        validate_anki_message E message_id user content deck_name parts
          (some sd) ai
        ∧ ∀ n ∈ (find_core E content sd.notes (some sd)).candidates.filter
            (fun n => n.front ∈ ai.valid_words.getD []),
            (n.id, n.front) ∈ payload.ticked_notes)
    ∧ ((∃ k v t, VEffect.redisSet k v t ∈
          validate_anki_message E message_id user content deck_name parts
            (some sd) ai) ↔
        ∃ n ∈ (find_core E content sd.notes (some sd)).candidates.filter
          (fun n => n.front ∈ ai.valid_words.getD []), n.is_reviewed = false)
    ∧ (∀ k v t, VEffect.redisSet k v t ∈
          validate_anki_message E message_id user content deck_name parts
            (some sd) ai →
        v.notes.length = sd.notes.length
        ∧ ∀ p ∈ sd.notes.zip v.notes,
            p.1.is_reviewed = true → p.2.is_reviewed = true) := by
  rw [validate_anki_message_eq E message_id user content deck_name parts
    sd ai hc]
  have hwritten : ∀ p ∈ sd.notes.zip (writtenSessionOf E content sd
      (ai.valid_words.getD [])).notes,
      p.1.is_reviewed = true → p.2.is_reviewed = true := by
    intro p hp hrev
    simp only [writtenSessionOf, writtenNotes] at hp
    rcases hcase : (find_core E content sd.notes (some sd)).precomputed with _ | _
    · rw [hcase] at hp
      simp only [Bool.false_eq_true, if_false] at hp
      have h2 := mem_zip_map _ _ _ hp
      rw [h2]
      by_cases hcond : (matchPred E content (some sd) p.1 &&
          decide (p.1.front ∈ ai.valid_words.getD [])) = true
      · rw [if_pos hcond]
      · rw [if_neg hcond]
        exact hrev
    · rw [hcase] at hp
      simp only [if_true] at hp
      rw [← mem_zip_same _ _ hp]
      exact hrev
  have hwlen : (writtenSessionOf E content sd
      (ai.valid_words.getD [])).notes.length = sd.notes.length := by
    simp only [writtenSessionOf, writtenNotes]
    by_cases hp : (find_core E content sd.notes (some sd)).precomputed = true
    · rw [if_pos hp]
    · rw [if_neg hp]
      simp
  refine ⟨?_, ?_, ?_, ?_⟩
  · intro hall k v t
    have hsm : stateModified (find_core E content sd.notes (some sd)).candidates
        (ai.valid_words.getD []) = false := by
      rw [← Bool.not_eq_true, stateModified_iff]
      rintro ⟨n, hn, hrev⟩
      rw [hall n hn] at hrev
      exact Bool.true_eq_false.mp hrev
    simp [hsm]
  · refine ⟨learningPayloadOf message_id user deck_name
        (find_core E content sd.notes (some sd)).candidates ai, ?_, ?_⟩
    · simp
    · intro n hn
      simp only [learningPayloadOf, tickedNotes]
      exact List.mem_map.mpr ⟨n, hn, rfl⟩
  · constructor
    · rintro ⟨k, v, t, hmem⟩
      simp only [List.mem_append, List.mem_singleton] at hmem
      rcases hmem with ((h | h) | h) | h
      · exact absurd h (by simp)
      · by_cases hsm : stateModified
            (find_core E content sd.notes (some sd)).candidates
            (ai.valid_words.getD []) = true
        · exact (stateModified_iff _ _).mp hsm
        · rw [if_neg hsm] at h
          exact absurd h (by simp)
      · exact absurd h (by simp)
      · exact absurd h (by simp)
    · intro hex
      have hsm := (stateModified_iff
        ((find_core E content sd.notes (some sd)).candidates)
        (ai.valid_words.getD [])).mpr hex
      exact ⟨redisKeyOf user deck_name,
        writtenSessionOf E content sd (ai.valid_words.getD []), 86400,
        by simp [hsm]⟩
  · intro k v t hmem
    simp only [List.mem_append, List.mem_singleton] at hmem
    rcases hmem with ((h | h) | h) | h
    · exact absurd h (by simp)
    · by_cases hsm : stateModified
          (find_core E content sd.notes (some sd)).candidates
          (ai.valid_words.getD []) = true
      · rw [if_pos hsm] at h
        simp only [List.mem_singleton, VEffect.redisSet.injEq] at h
        rw [h.2.1]
        exact ⟨hwlen, hwritten⟩
      · rw [if_neg hsm] at h
        exact absurd h (by simp)
    · exact absurd h (by simp)
    · exact absurd h (by simp)

/-- A note already reviewed, for the C3 witness. -/
def reviewedNote : NoteDict :=
  { id := "n1", front := "hello", back := "", mod := 1, is_reviewed := true }

/-- A session holding only `reviewedNote`. -/
def reviewedSession : SessionData :=
  { deck_name := "deck", notes := [reviewedNote], target_language := some "en" }

/-- An LLM response confirming "hello". -/
def aiConfirm : AiResult :=
  { valid_words := some ["hello"], feedback := some "ok" }

/-- C3 witness: re-confirming an already-reviewed note produces no cache
write. -/
theorem validate_anki_message_frame_witness :
    ((find_core asciiCaps "hello" reviewedSession.notes
        (some reviewedSession)).candidates ≠ [])
    ∧ ∀ k v t, VEffect.redisSet k v t ∉
        validate_anki_message asciiCaps "m1" "alice" "hello" "deck"
          ["alice", "bob"] (some reviewedSession) aiConfirm :=
  ⟨by decide,
   (validate_anki_message_frame asciiCaps "m1" "alice" "hello" "deck"
     ["alice", "bob"] reviewedSession aiConfirm (by decide)).1 (by decide)⟩

/-- C8 counterexample: when the lemmatization capability succeeds with the
empty string, `_lemmatize_token` returns that empty string, not the
lowercased input token — the code only catches raised errors, so the
claim's "or it returns empty" case does not hold. -/
theorem lemmatize_token_empty_result_cex :
    lemmatize_token emptyLemmaCaps "Dog" "en" = ""
    ∧ strLower "Dog" = "dog"
    ∧ ("" : String) ≠ "dog" := by
  refine ⟨rfl, rfl, by decide⟩

/-- C8 (amended): `_lemmatize_token` is total; for a language outside the
allowlist it behaves exactly as English lemmatization, and when the
capability raises it returns the lowercased input token unchanged.  (An
empty successful capability result is returned as the empty string — see
the counterexample.) -/
theorem lemmatize_token_fallback (E : ExtCaps) (token lang : String) :
    (lang ∉ SIMPLEMMA_LANGS →
      lemmatize_token E token lang = lemmatize_token E token "en")
    ∧ (strLower token ≠ "" →
        E.lemmatize (strLower token)
          (if lang ∈ SIMPLEMMA_LANGS then lang else "en") = .error () →
        lemmatize_token E token lang = strLower token) := by
  constructor
  · intro hlang
    rw [lemmatize_token, lemmatize_token]
    by_cases he : strLower token = ""
    · simp [he]
    · simp only [he, if_false]
      have h1 : (if lang ∈ SIMPLEMMA_LANGS then lang else "en") = "en" := by
        rw [if_neg hlang]
      have h2 : (if "en" ∈ SIMPLEMMA_LANGS then "en" else "en") = "en" := by
        simp
      rw [h1, h2]
  · intro he herr
    rw [lemmatize_token]
    simp only [he, if_false]
    rw [herr]

/-- C8 witness: with a capability that always raises and an unsupported
language code, the token comes back lowercased. -/
theorem lemmatize_token_fallback_witness :
    ("xx" ∉ SIMPLEMMA_LANGS)
    ∧ strLower "Dog" ≠ ""
    ∧ lemmatize_token throwLemmaCaps "Dog" "xx" = strLower "Dog" := by
  refine ⟨by decide, by decide, ?_⟩
  exact (lemmatize_token_fallback throwLemmaCaps "Dog" "xx").2 (by decide) rfl

/-- C5 counterexample: `staleNote` (all cache keys present but stale) does
not match "hello" on its own, yet after appending the unrelated,
un-annotated `freshExtra` — which itself does not match — the whole-list
precompute is triggered, `staleNote`'s cache is refreshed, and it now
matches.  Adding an unrelated note changed an existing note's match
status. -/
theorem find_note_matches_monotonicity_cex :
    (find_note_matches asciiCaps "hello" [staleNote] "deck" none).map
        (·.id) = []
    ∧ (find_note_matches asciiCaps "hello" [staleNote, freshExtra] "deck"
        none).map (·.id) = ["n0"]
    ∧ staleNote.id = "n0"
    ∧ freshExtra.id ∉ (find_note_matches asciiCaps "hello"
        [staleNote, freshExtra] "deck" none).map (·.id) := by
  refine ⟨rfl, rfl, rfl, by decide⟩

/-- C5 (amended): provided every note of the original collection and every
appended note already carries its precomputed cache fields (so appending
cannot trigger the whole-collection recompute), appending notes never
changes whether an existing note is in the result of
`find_note_matches`. -/
theorem find_note_matches_monotone (E : ExtCaps) (content deck : String)
    (sess : Option SessionData) (notes extra : List NoteDict) (n : NoteDict)
    (hfields : ∀ m ∈ notes ++ extra,
      m.nfront ≠ none ∧ m.nlemmas ≠ none ∧ m.nlang ≠ none)
    (hn : n ∈ notes) :
    n ∈ find_note_matches E content notes deck sess ↔
      n ∈ find_note_matches E content (notes ++ extra) deck sess := by
  have hne : notes ≠ [] := by
    rintro rfl
    cases hn
  have hne2 : notes ++ extra ≠ [] := by
    intro h
    exact hne (List.append_eq_nil.mp h).1
  rw [find_note_matches, find_note_matches, find_core, find_core]
  by_cases hcont : content = ""
  · rw [if_pos (Or.inl hcont), if_pos (Or.inl hcont)]
  · rw [if_neg (by rw [not_or]; exact ⟨hcont, hne⟩),
      if_neg (by rw [not_or]; exact ⟨hcont, hne2⟩)]
    have hany : notes.any (fun n =>
        n.nfront = none || n.nlemmas = none || n.nlang = none) = false := by
      rw [List.any_eq_false]
      intro m hm
      have h := hfields m (List.mem_append.mpr (Or.inl hm))
      simp [h.1, h.2.1, h.2.2]
    have hany2 : (notes ++ extra).any (fun n =>
        n.nfront = none || n.nlemmas = none || n.nlang = none) = false := by
      rw [List.any_eq_false]
      intro m hm
      have h := hfields m hm
      simp [h.1, h.2.1, h.2.2]
    simp only [hany, hany2, Bool.false_eq_true, if_false, List.filter_append,
      List.mem_append, List.mem_filter]
    constructor
    · intro h
      exact Or.inl h
    · rintro (h | h)
      · exact h
      · exact ⟨hn, h.2⟩

/-- C5 witness: with consistently annotated notes, appending an annotated
unrelated note leaves the match status of `hotDogNote` unchanged. -/
theorem find_note_matches_monotone_witness :
    ((∀ m ∈ [hotDogNote] ++ [(precompute_note asciiCaps "en" freshExtra).1],
        m.nfront ≠ none ∧ m.nlemmas ≠ none ∧ m.nlang ≠ none)
      ∧ hotDogNote ∈ [hotDogNote])
    ∧ (hotDogNote ∈ find_note_matches asciiCaps "I ate a hot dog today"
          [hotDogNote] "deck" none ↔
        hotDogNote ∈ find_note_matches asciiCaps "I ate a hot dog today"
          ([hotDogNote] ++ [(precompute_note asciiCaps "en" freshExtra).1])
          "deck" none) :=
  ⟨⟨by decide, by decide⟩,
   find_note_matches_monotone asciiCaps "I ate a hot dog today" "deck" none
     [hotDogNote] [(precompute_note asciiCaps "en" freshExtra).1] hotDogNote
     (by decide) (by decide)⟩

/-- A successful lookup exposes a binding of the registry. -/
theorem lookupUser_mem (r : Registry) (u : String) (v : List Nat)
    (h : lookupUser r u = some v) : (u, v) ∈ r := by
  induction r with
  | nil => cases h
  | cons b rest ih =>
    cases b with
    | mk k w =>
      rw [lookupUser] at h
      by_cases hk : k = u
      · rw [if_pos hk] at h
        have hw : w = v := Option.some_inj.mp h
        rw [← hk, ← hw]
        exact List.mem_cons.mpr (Or.inl rfl)
      · rw [if_neg hk] at h
        exact List.mem_cons.mpr (Or.inr (ih h))

/-- Lookup misses users outside the key list. -/
theorem lookupUser_eq_none (r : Registry) (u : String)
    (h : u ∉ regKeys r) : lookupUser r u = none := by
  induction r with
  | nil => rfl
  | cons b rest ih =>
    rw [lookupUser]
    rw [regKeys, List.map_cons, List.mem_cons, not_or] at h
    rw [if_neg (fun hk => h.1 hk.symm)]
    exact ih (by rw [regKeys]; exact h.2)

/-- Keys after `connect`: the new user is appended when absent, otherwise
the keys are unchanged. -/
theorem regKeys_connect (r : Registry) (u : String) (s : Nat) :
    regKeys (connect r u s)
      = if u ∈ regKeys r then regKeys r else regKeys r ++ [u] := by
  induction r with
  | nil => simp [connect, regKeys]
  | cons b rest ih =>
    rw [connect]
    by_cases hk : b.1 = u
    · cases b with
      | mk k v =>
        simp only at hk
        rw [if_pos hk]
        simp [regKeys, hk]
    · cases b with
      | mk k v =>
        simp only at hk
        rw [if_neg hk]
        simp only [regKeys, List.map_cons] at ih ⊢
        rw [ih]
        by_cases hu : u ∈ List.map Prod.fst rest
        · rw [if_pos hu, if_pos (List.mem_cons.mpr (Or.inr hu))]
        · rw [if_neg hu, if_neg (by
            rw [List.mem_cons, not_or]
            exact ⟨fun h => hk h.symm, hu⟩)]
          rfl

/-- Key distinctness is preserved by `connect`. -/
theorem nodup_regKeys_connect (r : Registry) (u : String) (s : Nat)
    (h : (regKeys r).Nodup) : (regKeys (connect r u s)).Nodup := by
  rw [regKeys_connect]
  by_cases hu : u ∈ regKeys r
  · rw [if_pos hu]
    exact h
  · rw [if_neg hu]
    rw [List.nodup_append]
    exact ⟨h, List.nodup_singleton u, by simpa using fun hmem => hu hmem⟩

/-- Keys after `disconnect` form a sublist of the original keys. -/
theorem regKeys_disconnect_sublist (r : Registry) (u : String) (s : Nat) :
    List.Sublist (regKeys (disconnect r u s)) (regKeys r) := by
  induction r with
  | nil => simp [disconnect]
  | cons b rest ih =>
    cases b with
    | mk k v =>
      rw [disconnect]
      by_cases hk : k = u
      · rw [if_pos hk]
        by_cases hv : (if s ∈ v then v.erase s else v) = []
        · rw [if_pos hv]
          exact List.Sublist.cons _ (List.Sublist.refl _)
        · rw [if_neg hv]
          exact List.Sublist.cons₂ _ (List.Sublist.refl _)
      · rw [if_neg hk]
        exact List.Sublist.cons₂ _ ih

/-- Key distinctness is preserved by `disconnect`. -/
theorem nodup_regKeys_disconnect (r : Registry) (u : String) (s : Nat)
    (h : (regKeys r).Nodup) : (regKeys (disconnect r u s)).Nodup :=
  (regKeys_disconnect_sublist r u s).nodup h

/-- Socket lists stay non-empty under `connect`. -/
theorem connect_values_ne_nil (r : Registry) (u : String) (s : Nat)
    (h : ∀ b ∈ r, b.2 ≠ []) : ∀ b ∈ connect r u s, b.2 ≠ [] := by
  induction r with
  | nil =>
    intro b hb
    rw [connect] at hb
    rcases List.mem_singleton.mp hb with rfl
    simp
  | cons hd rest ih =>
    intro b hb
    cases hd with
    | mk k v =>
      rw [connect] at hb
      by_cases hk : k = u
      · rw [if_pos hk] at hb
        rcases List.mem_cons.mp hb with rfl | hb
        · simp
        · exact h b (List.mem_cons.mpr (Or.inr hb))
      · rw [if_neg hk] at hb
        rcases List.mem_cons.mp hb with rfl | hb
        · exact h _ (List.mem_cons.mpr (Or.inl rfl))
        · exact ih (fun c hc => h c (List.mem_cons.mpr (Or.inr hc))) b hb

/-- Socket lists stay non-empty under `disconnect`: an emptied entry is
removed. -/
theorem disconnect_values_ne_nil (r : Registry) (u : String) (s : Nat)
    (h : ∀ b ∈ r, b.2 ≠ []) : ∀ b ∈ disconnect r u s, b.2 ≠ [] := by
  induction r with
  | nil =>
    intro b hb
    cases hb
  | cons hd rest ih =>
    intro b hb
    cases hd with
    | mk k v =>
      rw [disconnect] at hb
      by_cases hk : k = u
      · rw [if_pos hk] at hb
        by_cases hv : (if s ∈ v then v.erase s else v) = []
        · simp only [hv, if_pos] at hb
          exact h b (List.mem_cons.mpr (Or.inr hb))
        · rw [if_neg hv] at hb
          rcases List.mem_cons.mp hb with rfl | hb
          · exact hv
          · exact h b (List.mem_cons.mpr (Or.inr hb))
      · rw [if_neg hk] at hb
        rcases List.mem_cons.mp hb with rfl | hb
        · exact h _ (List.mem_cons.mpr (Or.inl rfl))
        · exact ih (fun c hc => h c (List.mem_cons.mpr (Or.inr hc))) b hb

/-- The registry invariant: non-empty socket lists and distinct keys. -/
def RegInv (r : Registry) : Prop :=
  (∀ b ∈ r, b.2 ≠ []) ∧ (regKeys r).Nodup

/-- Every registry reachable from the empty one satisfies the invariant. -/
theorem runOps_inv (ops : List RegOp) : RegInv (runOps ops) := by
  suffices h : ∀ r, RegInv r → RegInv (ops.foldl applyOp r) by
    exact h [] ⟨fun b hb => absurd hb (List.not_mem_nil b), List.nodup_nil⟩
  induction ops with
  | nil =>
    intro r hr
    exact hr
  | cons op rest ih =>
    intro r hr
    rw [List.foldl_cons]
    refine ih _ ?_
    cases op with
    | conn u s =>
      exact ⟨connect_values_ne_nil r u s hr.1, nodup_regKeys_connect r u s hr.2⟩
    | disc u s =>
      exact ⟨disconnect_values_ne_nil r u s hr.1,
        nodup_regKeys_disconnect r u s hr.2⟩

/-- Disconnecting the last socket removes the entry (given distinct
keys). -/
theorem disconnect_last_socket (r : Registry) (u : String) (s : Nat)
    (hk : (regKeys r).Nodup) (h : lookupUser r u = some [s]) :
    lookupUser (disconnect r u s) u = none := by
  induction r with
  | nil => cases h
  | cons hd rest ih =>
    cases hd with
    | mk k v =>
      rw [lookupUser] at h
      rw [disconnect]
      by_cases hku : k = u
      · rw [if_pos hku] at h
        rw [if_pos hku]
        have hv : v = [s] := Option.some_inj.mp h
        subst hv
        have hs : s ∈ [s] := List.mem_singleton.mpr rfl
        rw [if_pos hs]
        have herase : ([s] : List Nat).erase s = [] := by simp
        rw [herase, if_pos rfl]
        apply lookupUser_eq_none
        rw [regKeys, List.map_cons] at hk
        have := (List.nodup_cons.mp hk).1
        rw [← hku]
        exact this
      · rw [if_neg hku] at h
        rw [if_neg hku]
        rw [lookupUser, if_neg hku]
        refine ih ?_ h
        rw [regKeys, List.map_cons] at hk
        exact (List.nodup_cons.mp hk).2

/-- C9: after any sequence of connect/disconnect operations from the empty
registry, every user present in `active_connections` maps to a non-empty
socket list, and disconnecting a user's last socket removes the user's
entry entirely. -/
theorem registry_invariant (ops : List RegOp) :
    (∀ b ∈ runOps ops, b.2 ≠ [])
    ∧ (∀ u s, lookupUser (runOps ops) u = some [s] →
        lookupUser (disconnect (runOps ops) u s) u = none) := by
  have hinv := runOps_inv ops
  exact ⟨hinv.1, fun u s h => disconnect_last_socket _ u s hinv.2 h⟩

/-- C9 witness: connect two sockets for a user, disconnect one — the entry
stays (non-empty); the run's registry satisfies the invariant, and
disconnecting the remaining socket removes the entry. -/
theorem registry_invariant_witness :
    (∀ b ∈ runOps [RegOp.conn "a" 1, RegOp.conn "a" 2, RegOp.disc "a" 1],
      b.2 ≠ [])
    ∧ lookupUser (runOps [RegOp.conn "a" 1, RegOp.conn "a" 2,
        RegOp.disc "a" 1]) "a" = some [2]
    ∧ lookupUser (disconnect (runOps [RegOp.conn "a" 1, RegOp.conn "a" 2,
        RegOp.disc "a" 1]) "a" 2) "a" = none :=
  ⟨(registry_invariant [RegOp.conn "a" 1, RegOp.conn "a" 2,
      RegOp.disc "a" 1]).1,
   by decide,
   (registry_invariant [RegOp.conn "a" 1, RegOp.conn "a" 2,
      RegOp.disc "a" 1]).2 "a" 2 (by decide)⟩

/-- C1 counterexample: in the 3-participant scenario (sender alice with one
open socket, bob and carol with two each) the handler's broadcast call
names all three participants, and the manager performs 5 socket sends —
one of them to the sender's own socket — not 4.  The `sender` argument of
`broadcast_to_participants` is never consulted. -/
theorem broadcast_fanout_cex :
    HEffect.broadcastCall ["alice", "bob", "carol"] fanoutPayload "alice"
      ∈ handle_chat_message "alice" fanoutData fanoutConvs "m1" 0
    ∧ (broadcast_to_participants fanoutRegistry ["alice", "bob", "carol"]
        fanoutPayload "alice").length = 5
    ∧ ("alice", 1, fanoutPayload) ∈ broadcast_to_participants fanoutRegistry
        ["alice", "bob", "carol"] fanoutPayload "alice" := by
  refine ⟨by decide, rfl, by decide⟩

/-- Counting a send triple in a per-user block counts the socket. -/
theorem count_map_pair {M : Type} [DecidableEq M] (q : String) (msg : M)
    (conns : List Nat) (sock : Nat) :
    (conns.map (fun s => (q, s, msg))).count (q, sock, msg)
      = conns.count sock := by
  induction conns with
  | nil => rfl
  | cons c cs ih =>
    simp only [List.map_cons, List.count_cons, ih]
    by_cases h : c = sock
    · subst h
      simp
    · simp [h]

/-- C1 (amended): with distinct participants, distinct registry keys and
distinct per-user socket lists, a broadcast sends the payload exactly once
to each live socket of every listed participant — including the sender's
own sockets — and to nobody else. -/
theorem broadcast_exactly_once {M : Type} [DecidableEq M] (r : Registry)
    (parts : List String) (msg : M) (sender p : String) (sock : Nat)
    (hparts : parts.Nodup) (hvals : ∀ b ∈ r, b.2.Nodup) :
    (broadcast_to_participants r parts msg sender).count (p, sock, msg)
      = if p ∈ parts ∧ sock ∈ (lookupUser r p).getD [] then 1 else 0 := by
  induction parts with
  | nil =>
    simp [broadcast_to_participants]
  | cons q ps ih =>
    rw [broadcast_to_participants, List.count_append]
    have hq := List.nodup_cons.mp hparts
    rw [ih hq.2]
    by_cases hpq : q = p
    · subst hpq
      have hps : (if q ∈ ps ∧ sock ∈ (lookupUser r q).getD [] then 1 else 0)
          = 0 := by
        rw [if_neg]
        intro hcon
        exact hq.1 hcon.1
      rw [hps]
      cases hlook : lookupUser r q with
      | none =>
        simp [hlook]
      | some conns =>
        have hnodup : conns.Nodup := hvals (q, conns) (lookupUser_mem r q conns hlook)
        dsimp only
        rw [count_map_pair]
        simp only [hlook, Option.getD_some, List.mem_cons]
        by_cases hmem : sock ∈ conns
        · rw [List.count_eq_one_of_mem hnodup hmem]
          simp [hmem]
        · rw [List.count_eq_zero_of_not_mem hmem]
          simp [hmem]
    · have hzero : (match lookupUser r q with
          | some conns => conns.map (fun s => (q, s, msg))
          | none => ([] : List (String × Nat × M))).count (p, sock, msg)
            = 0 := by
        cases hlook : lookupUser r q with
        | none => simp
        | some conns =>
          rw [List.count_eq_zero_of_not_mem]
          intro hmem
          rcases List.mem_map.mp hmem with ⟨a, _, ha⟩
          exact hpq (congrArg Prod.fst ha)
      rw [hzero, Nat.zero_add]
      by_cases hmem : p ∈ ps ∧ sock ∈ (lookupUser r p).getD []
      · rw [if_pos hmem, if_pos ⟨List.mem_cons.mpr (Or.inr hmem.1), hmem.2⟩]
      · rw [if_neg hmem, if_neg]
        intro hcon
        rcases List.mem_cons.mp hcon.1 with h | h
        · exact hpq h.symm
        · exact hmem ⟨h, hcon.2⟩

/-- C1 witness: in the fan-out scenario the sender's socket receives the
payload exactly once. -/
theorem broadcast_exactly_once_witness :
    ((["alice", "bob", "carol"] : List String).Nodup
      ∧ ∀ b ∈ fanoutRegistry, b.2.Nodup)
    ∧ (broadcast_to_participants fanoutRegistry ["alice", "bob", "carol"]
        fanoutPayload "alice").count ("alice", 1, fanoutPayload)
      = if "alice" ∈ ["alice", "bob", "carol"]
          ∧ 1 ∈ (lookupUser fanoutRegistry "alice").getD [] then 1 else 0 :=
  ⟨⟨by decide, by decide⟩,
   broadcast_exactly_once fanoutRegistry ["alice", "bob", "carol"]
     fanoutPayload "alice" "alice" 1 (by decide) (by decide)⟩

/-!
## C4: contiguity of multi-word matching

The n-gram membership test of branch (c) is characterized as contiguous
containment of the note's lemma sequence in the message's lemma sequence.
The bridge needs injectivity of the space-join on space-free lemma lists.
-/

/-- `String.data` respects append. -/
theorem str_data_append (a b : String) : (a ++ b).data = a.data ++ b.data :=
  rfl

/-- `String.data` is injective on lists of strings. -/
theorem map_data_inj (xs ys : List String)
    (h : xs.map String.data = ys.map String.data) : xs = ys := by
  induction xs generalizing ys with
  | nil =>
    cases ys with
    | nil => rfl
    | cons y ys => simp at h
  | cons x xs ih =>
    cases ys with
    | nil => simp at h
    | cons y ys =>
      simp only [List.map_cons, List.cons.injEq] at h
      rw [String.ext h.1, ih ys h.2]

/-- The space-join at the character level. -/
def cjoin : List (List Char) → List Char
  | [] => []
  | [x] => x
  | x :: rest => x ++ ' ' :: cjoin rest

/-- `pyJoin " "` seen through `String.data`. -/
theorem pyJoin_data (xs : List String) :
    (pyJoin " " xs).data = cjoin (xs.map String.data) := by
  induction xs with
  | nil => rfl
  | cons x xs ih =>
    cases xs with
    | nil => rfl
    | cons y rest =>
      show (x ++ " " ++ pyJoin " " (y :: rest)).data
        = x.data ++ ' ' :: cjoin ((y :: rest).map String.data)
      rw [str_data_append, str_data_append, ← ih]
      simp

/-- With space-free prefixes, the first separator fixes the split. -/
theorem sep_split (x : List Char) (A : List Char) :
    ∀ (y B : List Char), ' ' ∉ x → ' ' ∉ y →
      x ++ ' ' :: A = y ++ ' ' :: B → x = y ∧ A = B := by
  induction x with
  | nil =>
    intro y B _ hy h
    cases y with
    | nil =>
      rw [List.nil_append, List.nil_append] at h
      injection h with h1 h2
      exact ⟨rfl, h2⟩
    | cons c ys =>
      rw [List.nil_append, List.cons_append] at h
      injection h with h1 h2
      exact absurd (List.mem_cons.mpr (Or.inl h1)) hy
  | cons c xs ih =>
    intro y B hx hy h
    cases y with
    | nil =>
      rw [List.cons_append, List.nil_append] at h
      injection h with h1 h2
      exact absurd (List.mem_cons.mpr (Or.inl h1.symm)) hx
    | cons d ys =>
      rw [List.cons_append, List.cons_append] at h
      injection h with h1 h2
      have hx' : ' ' ∉ xs := fun hm => hx (List.mem_cons.mpr (Or.inr hm))
      have hy' : ' ' ∉ ys := fun hm => hy (List.mem_cons.mpr (Or.inr hm))
      obtain ⟨e1, e2⟩ := ih ys B hx' hy' h2
      exact ⟨by rw [h1, e1], e2⟩

/-- The space-join is injective on non-empty lists of space-free character
lists. -/
theorem cjoin_inj (xs : List (List Char)) :
    ∀ (ys : List (List Char)), xs ≠ [] → ys ≠ [] →
      (∀ x ∈ xs, ' ' ∉ x) → (∀ y ∈ ys, ' ' ∉ y) →
      cjoin xs = cjoin ys → xs = ys := by
  induction xs with
  | nil => intro ys h; exact absurd rfl h
  | cons x xs ih =>
    intro ys _ hyne hxs hys h
    cases ys with
    | nil => exact absurd rfl hyne
    | cons y ys =>
      cases xs with
      | nil =>
        cases ys with
        | nil =>
          replace h : x = y := h
          rw [h]
        | cons y2 ys' =>
          replace h : x = y ++ ' ' :: cjoin (y2 :: ys') := h
          have hsp : ' ' ∈ x := by
            rw [h]
            exact List.mem_append_right _ (List.mem_cons.mpr (Or.inl rfl))
          exact absurd hsp (hxs x (List.mem_cons.mpr (Or.inl rfl)))
      | cons x2 xs' =>
        cases ys with
        | nil =>
          replace h : x ++ ' ' :: cjoin (x2 :: xs') = y := h
          have hsp : ' ' ∈ y := by
            rw [← h]
            exact List.mem_append_right _ (List.mem_cons.mpr (Or.inl rfl))
          exact absurd hsp (hys y (List.mem_cons.mpr (Or.inl rfl)))
        | cons y2 ys' =>
          replace h : x ++ ' ' :: cjoin (x2 :: xs')
              = y ++ ' ' :: cjoin (y2 :: ys') := h
          obtain ⟨e1, e2⟩ := sep_split x (cjoin (x2 :: xs')) y
            (cjoin (y2 :: ys'))
            (hxs x (List.mem_cons.mpr (Or.inl rfl)))
            (hys y (List.mem_cons.mpr (Or.inl rfl))) h
          have hrec := ih (y2 :: ys') (by simp) (by simp)
            (fun a ha => hxs a (List.mem_cons.mpr (Or.inr ha)))
            (fun a ha => hys a (List.mem_cons.mpr (Or.inr ha))) e2
          rw [e1, hrec]

/-- `" ".join` is injective on non-empty lists of space-free strings. -/
theorem pyJoin_inj (xs ys : List String) (hxne : xs ≠ []) (hyne : ys ≠ [])
    (hxs : ∀ x ∈ xs, ' ' ∉ x.data) (hys : ∀ y ∈ ys, ' ' ∉ y.data)
    (h : pyJoin " " xs = pyJoin " " ys) : xs = ys := by
  have hdata := congrArg String.data h
  rw [pyJoin_data, pyJoin_data] at hdata
  refine map_data_inj xs ys ?_
  refine cjoin_inj (xs.map String.data) (ys.map String.data) ?_ ?_ ?_ ?_ hdata
  · simpa using hxne
  · simpa using hyne
  · intro x hx
    rcases List.mem_map.mp hx with ⟨a, ha, rfl⟩
    exact hxs a ha
  · intro y hy
    rcases List.mem_map.mp hy with ⟨a, ha, rfl⟩
    exact hys a ha

/-- Membership in the n-gram set, unfolded. -/
theorem mem_make_ngram_set (lemmas : List String) (max_n : Nat) (x : String) :
    x ∈ make_ngram_set lemmas max_n ↔
      ∃ n i, 1 ≤ n ∧ n ≤ max_n ∧ i + n ≤ lemmas.length ∧
        x = pyJoin " " ((lemmas.drop i).take n) := by
  rw [make_ngram_set]
  rw [List.mem_flatMap]
  constructor
  · rintro ⟨n, hn, hx⟩
    rw [List.mem_range'_1] at hn
    rcases List.mem_map.mp hx with ⟨i, hi, rfl⟩
    rw [List.mem_range] at hi
    refine ⟨n, i, hn.1, ?_, ?_, rfl⟩
    · omega
    · omega
  · rintro ⟨n, i, h1, h2, h3, rfl⟩
    refine ⟨n, ?_, ?_⟩
    · rw [List.mem_range'_1]
      constructor
      · exact h1
      · omega
    · refine List.mem_map.mpr ⟨i, ?_, rfl⟩
      rw [List.mem_range]
      omega

/-- A take-of-drop slice occurs contiguously inside the list. -/
theorem slice_contained (l : List String) (i n : Nat) :
    (l.drop i).take n <:+: l := by
  refine ⟨l.take i, (l.drop i).drop n, ?_⟩
  rw [List.append_assoc, List.take_append_drop, List.take_append_drop]

/-- Any infix is a take-of-drop slice. -/
theorem contained_slice (l₁ l₂ : List String) (h : l₁ <:+: l₂) :
    ∃ i, i + l₁.length ≤ l₂.length ∧ l₁ = (l₂.drop i).take l₁.length := by
  rcases h with ⟨s, t, hst⟩
  refine ⟨s.length, ?_, ?_⟩
  · rw [← hst]
    simp [List.length_append]
  · rw [← hst, List.append_assoc, List.drop_left, List.take_left]

/-- Branch (c) is exactly contiguous containment (up to the n-gram ceiling)
of the note's lemma sequence in the content's lemma sequence. -/
theorem join_mem_ngram_iff (lems cl : List String) (hne : lems ≠ [])
    (hl : ∀ l ∈ lems, ' ' ∉ l.data) (hc : ∀ l ∈ cl, ' ' ∉ l.data) :
    pyJoin " " lems ∈ make_ngram_set cl 6 ↔
      lems <:+: cl ∧ lems.length ≤ 6 := by
  constructor
  · intro h
    rcases (mem_make_ngram_set cl 6 _).mp h with ⟨n, i, h1, h2, h3, hjoin⟩
    have hslice : (cl.drop i).take n ≠ [] := by
      have : ((cl.drop i).take n).length = n := by
        rw [List.length_take, List.length_drop]
        omega
      intro hcon
      rw [hcon] at this
      simp at this
      omega
    have hsub : ∀ l ∈ (cl.drop i).take n, ' ' ∉ l.data := by
      intro l hlmem
      have hwithin := slice_contained cl i n
      exact hc l (hwithin.subset hlmem)
    have heq : lems = (cl.drop i).take n :=
      pyJoin_inj lems _ hne hslice hl hsub hjoin
    constructor
    · rw [heq]
      exact slice_contained cl i n
    · have hlen : lems.length = n := by
        rw [heq, List.length_take, List.length_drop]
        omega
      omega
  · rintro ⟨hinf, hlen⟩
    rcases contained_slice lems cl hinf with ⟨i, hle, hsl⟩
    refine (mem_make_ngram_set cl 6 _).mpr
      ⟨lems.length, i, ?_, hlen, hle, by rw [← hsl]⟩
    have := List.length_pos.mpr hne
    omega

/-- Membership in `find_note_matches` is the per-note predicate, when no
note is missing cache fields (so no precompute rewrites the list). -/
theorem mem_find_note_matches (E : ExtCaps) (content deck : String)
    (sess : Option SessionData) (notes : List NoteDict) (n : NoteDict)
    (hcont : content ≠ "")
    (hfields : ∀ m ∈ notes,
      m.nfront ≠ none ∧ m.nlemmas ≠ none ∧ m.nlang ≠ none)
    (hn : n ∈ notes) :
    n ∈ find_note_matches E content notes deck sess ↔
      note_matches E content (contentTokens E content)
        (contentLemmas E content (sessLang sess))
        (make_ngram_set (contentLemmas E content (sessLang sess)) 6) n
        = true := by
  have hne : notes ≠ [] := by
    rintro rfl
    cases hn
  rw [find_note_matches, find_core]
  rw [if_neg (by rw [not_or]; exact ⟨hcont, hne⟩)]
  have hany : notes.any (fun n =>
      n.nfront = none || n.nlemmas = none || n.nlang = none) = false := by
    rw [List.any_eq_false]
    intro m hm
    have h := hfields m hm
    simp [h.1, h.2.1, h.2.2]
  simp only [hany, Bool.false_eq_true, if_false, List.mem_filter]
  constructor
  · intro h
    exact h.2
  · intro h
    exact ⟨hn, h⟩

/-- For a precomputed multi-word note the per-note predicate reduces to
branch (c) (n-gram membership of the joined lemmas) or branch (d) (the
substring fallback). -/
theorem note_matches_multiword (E : ExtCaps) (content : String)
    (ts ls ng : List String) (n : NoteDict) (fn : String)
    (toks lems : List String)
    (hfn : n.nfront = some fn) (hfnne : fn ≠ "")
    (htoks : n.ntokens = some toks) (hlen : 2 ≤ toks.length)
    (hlem : n.nlemmas = some lems) (hlne : lems ≠ [])
    (hsingle : strTruthy n.nsingle = false) :
    note_matches E content ts ls ng n = true ↔
      (pyJoin " " lems ∈ ng
        ∨ (pyStrIn " " fn = true
            ∧ pyStrIn fn (normalize_text E content) = true)) := by
  have hfront : pyOrOpt n.nfront (normalize_text E n.front) = fn := by
    rw [hfn, pyOrOpt, if_neg hfnne]
  rcases toks with _ | ⟨t1, toks1⟩
  · simp at hlen
  rcases toks1 with _ | ⟨t2, toks2⟩
  · simp at hlen
  rw [note_matches, hfront, hsingle, htoks, hlem]
  dsimp only
  simp only [Bool.false_and, Bool.false_or, Option.getD_some,
    Bool.or_eq_true, Bool.and_eq_true, decide_eq_true_eq, ne_eq]
  constructor
  · intro h
    tauto
  · intro h
    tauto

/-- C4: a precomputed multi-word note (more than one front token, so the
single-word branches (a) and (b) cannot fire) matches a message iff its
lemma sequence occurs as a contiguous run of the message's lemma sequence
of length at most the n-gram ceiling 6, or its non-empty cached normalized
front contains a space and occurs literally inside the normalized content;
and concretely, note front "hot dog" does not match "the hot outside dog"
but does match "I ate a hot dog today". -/
theorem multiword_contiguous_match :
    (∀ (E : ExtCaps) (content deck : String) (sess : Option SessionData)
       (notes : List NoteDict) (n : NoteDict) (fn : String)
       (toks lems : List String),
       content ≠ "" →
       (∀ m ∈ notes,
         m.nfront ≠ none ∧ m.nlemmas ≠ none ∧ m.nlang ≠ none) →
       n ∈ notes →
       n.nfront = some fn → fn ≠ "" →
       n.ntokens = some toks → 2 ≤ toks.length →
       n.nlemmas = some lems → lems ≠ [] →
       strTruthy n.nsingle = false →
       (∀ l ∈ lems, ' ' ∉ l.data) →
       (∀ l ∈ contentLemmas E content (sessLang sess), ' ' ∉ l.data) →
       (n ∈ find_note_matches E content notes deck sess ↔
         (lems <:+: contentLemmas E content (sessLang sess)
             ∧ lems.length ≤ 6)
         ∨ (pyStrIn " " fn = true
             ∧ pyStrIn fn (normalize_text E content) = true)))
    ∧ find_note_matches asciiCaps "the hot outside dog" [hotDogNote] "d"
        none = []
    ∧ find_note_matches asciiCaps "I ate a hot dog today" [hotDogNote] "d"
        none = [hotDogNote] := by
  refine ⟨?_, by decide, by decide⟩
  intro E content deck sess notes n fn toks lems hcont hfields hn hfn hfnne
    htoks hlen hlem hlne hsingle hlsp hcsp
  rw [mem_find_note_matches E content deck sess notes n hcont hfields hn]
  rw [note_matches_multiword E content (contentTokens E content)
    (contentLemmas E content (sessLang sess))
    (make_ngram_set (contentLemmas E content (sessLang sess)) 6) n fn toks
    lems hfn hfnne htoks hlen hlem hlne hsingle]
  rw [join_mem_ngram_iff lems (contentLemmas E content (sessLang sess))
    hlne hlsp hcsp]

/-- C4 witness: instantiating the characterization at the "hot dog" note
and the matching sample sentence. -/
theorem multiword_contiguous_match_witness :
    (("I ate a hot dog today" : String) ≠ ""
      ∧ hotDogNote.nlemmas = some ["hot", "dog"]
      ∧ hotDogNote.ntokens = some ["hot", "dog"])
    ∧ (hotDogNote ∈ find_note_matches asciiCaps "I ate a hot dog today"
          [hotDogNote] "d" none ↔
        ((["hot", "dog"] <:+: contentLemmas asciiCaps "I ate a hot dog today"
              (sessLang none)
            ∧ (["hot", "dog"] : List String).length ≤ 6)
          ∨ (pyStrIn " " "hot dog" = true
              ∧ pyStrIn "hot dog"
                  (normalize_text asciiCaps "I ate a hot dog today")
                  = true))) :=
  ⟨⟨by decide, by decide, by decide⟩,
   multiword_contiguous_match.1 asciiCaps "I ate a hot dog today" "d" none
     [hotDogNote] hotDogNote "hot dog" ["hot", "dog"] ["hot", "dog"]
     (by decide) (by decide) (by decide) (by decide) (by decide) (by decide)
     (by decide) (by decide) (by decide) (by decide) (by decide) (by decide)⟩
